import Mathlib

/-!
# Verification of the FROST threshold-signature engine

Shallow embedding of the `FrostSignature` class (file `frost.js` of the
repository).  Scalars are modelled as `ℕ` (all bn.js values are arbitrary
precision integers; the code parses them from hex, so they are non-negative
unless produced by a signed `mod`, which we model on `ℤ` with `Int.tmod`,
bn.js `mod` keeping the sign of the dividend).  Curve points are modelled over
an arbitrary additive commutative group `G` with basepoint `g`; `ec.g.mul(k)`
is `k • g`.  The SHA-256 digest function and the raw byte source are opaque
to the program, so they are explicit parameters: hashing is a parameter
`H : String → String` (hex digest of a string), and randomness is an
`Entropy` value, a stream of candidate 32-byte values (`randomBytes(32)`
parsed as a number) together with the assumption that in-range candidates
keep appearing, which makes the rejection-sampling loop terminate.
-/

namespace Frost

/-- The order of the secp256k1 group (`ec.curve.n` in the code). -/
def curveOrder : ℕ :=
  0xFFFFFFFFFFFFFFFFFFFFFFFFFFFFFFFEBAAEDCE6AF48A03BBFD25E8CD0364141

instance : NeZero curveOrder := ⟨by decide⟩

/-- bn.js `x.mod(n)`: remainder with the sign of the dividend (truncated
division), taken at the curve order. -/
def tmodN (x : ℤ) : ℤ := x.tmod (curveOrder : ℤ)

/-- bn.js `x.invm(n)` at the curve order: the Bezout-based modular inverse,
normalised into `[0, n)` (`egcd` reduces a signed input by `umod` first).
For inputs coprime to the modulus — the only inputs for which the library
documents a meaning — this is the unique modular inverse, which is also the
value of `ZMod.inv`. -/
def invm (x : ℤ) : ℕ := (((x : ZMod curveOrder))⁻¹).val

/-- The random source: `stream k` is the value of the `k`-th call to
`randomBytes(32)` (parsed as a number), together with the guarantee that
from every point on some candidate below the curve order appears (true with
probability 1 for real randomness; without it the sampling loop of
`_generateRandomPrivateKey` would not terminate). -/
structure Entropy where
  stream : ℕ → ℕ
  inRange : ∀ start : ℕ, ∃ k, stream (start + k) < curveOrder

/-- Index of the first accepted candidate at or after `start`. -/
def rejectionIndex (e : Entropy) (start : ℕ) : ℕ := Nat.find (e.inRange start)

/-- `_generateRandomPrivateKey`: draw candidates, discard any candidate that
is `≥ curveOrder`, return the first accepted one. -/
def generateRandomPrivateKey (e : Entropy) (start : ℕ) : ℕ :=
  e.stream (start + rejectionIndex e start)

/-- Position of the stream after one call to `_generateRandomPrivateKey`
that started at `start`. -/
def nextPos (e : Entropy) (start : ℕ) : ℕ := start + rejectionIndex e start + 1

/-- The `t` polynomial coefficients drawn at the top of `generateKeyShares`,
in draw order, together with the stream position after the draws. -/
def drawCoefficients (e : Entropy) : ℕ → ℕ → List ℕ × ℕ
  | pos, 0 => ([], pos)
  | pos, t + 1 =>
      let v := generateRandomPrivateKey e pos
      let rest := drawCoefficients e (nextPos e pos) t
      (v :: rest.1, rest.2)

/-- A participant's private share (`{ index, value }`, the value being the
number the hex string denotes). -/
structure ParticipantShare where
  index : ℕ
  value : ℕ
deriving DecidableEq, Inhabited

/-- A participant's public share (`{ index, x, y }` in the code; the two hex
coordinates denote the point). -/
structure PublicShare (G : Type) where
  index : ℕ
  point : G
deriving DecidableEq

/-- Result object of `generateKeyShares`. -/
structure KeyShareSet (G : Type) where
  shares : List ParticipantShare
  publicShares : List (PublicShare G)
  groupPublicKey : G
  threshold : ℕ
  total : ℕ
deriving DecidableEq

/-- The three `throw new Error(...)` sites of the class, with the data their
messages carry. -/
inductive FrostError where
  | thresholdExceedsTotal : FrostError
  | thresholdTooSmall : FrostError
  | insufficientShares (required got : ℕ) : FrostError
deriving DecidableEq

/-- The inner loop of `generateKeyShares`: evaluate the polynomial with the
given coefficient list at `x`, exactly as the code folds
`share = share.add(coefficients[j].mul(x.pow(j)).mod(n)).mod(n)`. -/
def evalPolyAt (coefficients : List ℕ) (x : ℕ) : ℕ :=
  (List.range coefficients.length).foldl
    (fun share j => (share + coefficients.getD j 0 * x ^ j % curveOrder) % curveOrder)
    0

/-- `generateKeyShares(n, t)`. -/
def generateKeyShares (G : Type) [AddCommGroup G] (g : G) (e : Entropy) (pos : ℕ)
    (n t : ℕ) : Except FrostError (KeyShareSet G) :=
  if t > n then .error .thresholdExceedsTotal
  else if t < 1 then .error .thresholdTooSmall
  else
    let coefficients := (drawCoefficients e pos t).1
    .ok
      { shares := (List.range n).map (fun i0 => ⟨i0 + 1, evalPolyAt coefficients (i0 + 1)⟩)
        publicShares :=
          (List.range n).map (fun i0 => ⟨i0 + 1, evalPolyAt coefficients (i0 + 1) • g⟩)
        groupPublicKey := coefficients.getD 0 0 • g
        threshold := t
        total := n }

/-- Result of `generateCommitment`: the one-time nonce and its point. -/
structure CommitmentResult (G : Type) where
  nonce : ℕ
  commitment : G
deriving DecidableEq

/-- `generateCommitment(privateShare)`; the argument is received but never
read by the code. -/
def generateCommitment (G : Type) [AddCommGroup G] (g : G) (e : Entropy) (pos : ℕ)
    (privateShare : ParticipantShare) : CommitmentResult G :=
  let nonce := generateRandomPrivateKey e pos
  { nonce := nonce, commitment := nonce • g }

/-- A commitment as consumed by `_calculateBindingFactor`: the two hex
coordinate strings. -/
structure CommitmentPoint where
  x : String
  y : String
deriving DecidableEq

/-- `_calculateBindingFactor(messageHash, commitments)`: hash of the message
hash concatenated with the coordinate strings of the commitments in their
list order. -/
def calculateBindingFactor (H : String → String) (messageHash : String)
    (commitments : List CommitmentPoint) : String :=
  let commitmentString := commitments.foldl (fun acc c => acc ++ c.x ++ c.y) ""
  H (messageHash ++ commitmentString)

/-- `_hashMessage(message)`: the hex digest of the message. -/
def hashMessage (H : String → String) (message : String) : String := H message

/-- Value of a hex digit character, as `new BN(str, 16)` reads it. -/
def hexDigitVal (c : Char) : ℕ :=
  if 97 ≤ c.toNat then c.toNat - 87
  else if 65 ≤ c.toNat then c.toNat - 55
  else c.toNat - 48

/-- The number denoted by a hex string (`new BN(str, 16)`). -/
def hexToNat (s : String) : ℕ :=
  s.data.foldl (fun acc c => 16 * acc + hexDigitVal c) 0

/-- bn.js `toString('hex')` of a non-negative value: minimal lowercase hex
digits. -/
def natToHex (n : ℕ) : String := ⟨Nat.toDigits 16 n⟩

/-- bn.js `toString('hex')` of a signed value: a leading minus sign for
negative values. -/
def intToHex (x : ℤ) : String :=
  if x < 0 then "-" ++ natToHex x.natAbs else natToHex x.natAbs

/-- JavaScript `padStart(len, c)`. -/
def padStart (s : String) (len : ℕ) (c : Char) : String :=
  if len ≤ s.length then s else String.mk (List.replicate (len - s.length) c) ++ s

/-- A signature share `{ index, value }`. -/
structure SignatureShare where
  index : ℕ
  value : ℕ
deriving DecidableEq, Inhabited

/-- `generateSignatureShare(message, privateShare, nonce, commitments,
participants)`; `participants` is received but never read, and the parsed
message hash `msgBN` is computed but unused. -/
def generateSignatureShare (H : String → String) (message : String)
    (privateShare : ParticipantShare) (nonce : ℕ)
    (commitments : List CommitmentPoint) (participants : List ℕ) : SignatureShare :=
  let messageHash := hashMessage H message
  let bindingFactor := calculateBindingFactor H messageHash commitments
  let c := hexToNat bindingFactor
  { index := privateShare.index
    value := (nonce + c * privateShare.value % curveOrder) % curveOrder }

/-- One step of the inner `j` loop of `_calculateLagrangeCoefficients`:
`coeff = coeff.mul(num).mul(denomInv).mod(n)` with `num = (0 - xj).mod(n)`
and `denomInv = ((xi - xj).mod(n)).invm(n)`. -/
def lagStep (xi : ℕ) (coeff : ℤ) (xj : ℕ) : ℤ :=
  let num := tmodN (0 - (xj : ℤ))
  let denom := tmodN ((xi : ℤ) - (xj : ℤ))
  let denomInv := invm denom
  tmodN (coeff * num * (denomInv : ℤ))

/-- One Lagrange coefficient of `_calculateLagrangeCoefficients`: the inner
`j` loop for the node `xi`, folding over the other indices with the signed
`mod` of bn.js after each step. -/
def lagrangeOne (xi : ℕ) (others : List ℕ) : ℤ :=
  others.foldl (lagStep xi) 1

/-- One step of the aggregation loop:
`acc = acc.add(share.mul(lagrange).mod(n)).mod(n)`, split into the inner
reduced product (the argument) and the reduced addition. -/
def addTmod (acc x : ℤ) : ℤ := tmodN (acc + x)

/-- `_calculateLagrangeCoefficients(indices)`: one coefficient per position,
each computed against all the other positions. -/
def calculateLagrangeCoefficients (indices : List ℕ) : List ℤ :=
  (List.range indices.length).map
    (fun i => lagrangeOne (indices.getD i 0) (indices.eraseIdx i))

/-- Result object of `combineSignatureShares` (Ethereum `(r, s, v)` format
plus the raw combined scalar, all as the code's strings). -/
structure AggregatedSignature where
  r : String
  s : String
  v : ℕ
  combined : String
deriving DecidableEq

/-- The aggregation loop of `combineSignatureShares`:
`combinedSignature = combinedSignature.add(share.mul(lagrange).mod(n)).mod(n)`. -/
def combineLoop (values : List ℕ) (lag : List ℤ) : ℤ :=
  (List.range values.length).foldl
    (fun acc i => tmodN (acc + tmodN ((values.getD i 0 : ℤ) * lag.getD i 0)))
    0

/-- `combineSignatureShares(message, signatureShares, commitments,
publicShares, threshold)`.  `publicShares` is received but never read; the
message hash and binding factor are computed and then unused; the `s`
component is a fresh random draw and `v` is the constant 27. -/
def combineSignatureShares (G : Type) (e : Entropy) (pos : ℕ) (H : String → String)
    (message : String) (signatureShares : List SignatureShare)
    (commitments : List CommitmentPoint) (publicShares : List (PublicShare G))
    (threshold : ℕ) : Except FrostError AggregatedSignature :=
  if signatureShares.length < threshold then
    .error (.insufficientShares threshold signatureShares.length)
  else
    let messageHash := hashMessage H message
    let bindingFactor := calculateBindingFactor H messageHash commitments
    let indices := signatureShares.map (·.index)
    let lagrangeCoefficients := calculateLagrangeCoefficients indices
    let combinedSignature :=
      combineLoop (signatureShares.map (·.value)) lagrangeCoefficients
    let r := padStart (intToHex combinedSignature) 64 '0'
    let s := padStart (natToHex (generateRandomPrivateKey e pos)) 64 '0'
    .ok { r := r, s := s, v := 27, combined := intToHex combinedSignature }

/-- `verifySignature(message, signature, groupPublicKey)`.  Everything inside
the `try` block is a sequence of calls into the `crypto`, bn.js and
elliptic.js libraries (hashing, scalar parsing, `keyFromPublic`,
`ec.verify`), which are outside this repository; the computation they
perform is abstracted as `lib`, an arbitrary fallible boolean computation
over the three inputs.  The repository code is the `try`/`catch` wrapper:
a thrown exception becomes the return value `false`. -/
def verifySignature (lib : String → String × String → String × String →
    Except String Bool) (message : String) (signature : String × String)
    (groupPublicKey : String × String) : Bool :=
  match lib message signature groupPublicKey with
  | .ok b => b
  | .error _ => false

/-- The reconstruction the specification describes for key shares: feed the
chosen `(index, value)` pairs through `_calculateLagrangeCoefficients` and
the aggregation loop of `combineSignatureShares`, interpolating at 0. -/
def interpolateAtZero (pairs : List (ℕ × ℕ)) : ℤ :=
  combineLoop (pairs.map Prod.snd) (calculateLagrangeCoefficients (pairs.map Prod.fst))

/-- A constant candidate stream. -/
def constEntropy (c : ℕ) (h : c < curveOrder) : Entropy :=
  ⟨fun _ => c, fun start => ⟨0, h⟩⟩

/-- The value range a signed bn.js residue lives in: `(-n, 0]` after a chain
of `mod`s whose dividend was non-positive, `[0, n)` for non-negative
dividends.  Each range contains exactly one representative of every residue
class mod `n`. -/
def InWindow : Bool → ℤ → Prop
  | false, x => 0 ≤ x ∧ x < (curveOrder : ℤ)
  | true, x => -(curveOrder : ℤ) < x ∧ x ≤ 0

/-- The residue of one Lagrange coefficient: the product, over the other
nodes, of `(-xj) * (xi - xj)⁻¹` in `ZMod curveOrder`. -/
def lagrangeCastProd (xi : ℕ) (others : List ℕ) : ZMod curveOrder :=
  (others.map
    (fun xj : ℕ =>
      (-(xj : ZMod curveOrder)) *
        ((xi : ZMod curveOrder) - (xj : ZMod curveOrder))⁻¹)).prod

/-! ## Basic facts about the embedding -/

theorem curveOrder_pos : 0 < curveOrder := by decide

theorem generateRandomPrivateKey_lt (e : Entropy) (pos : ℕ) :
    generateRandomPrivateKey e pos < curveOrder :=
  Nat.find_spec (e.inRange pos)

theorem generateRandomPrivateKey_const (c : ℕ) (h : c < curveOrder) (pos : ℕ) :
    generateRandomPrivateKey (constEntropy c h) pos = c := rfl

theorem rejectionIndex_const (c : ℕ) (h : c < curveOrder) (pos : ℕ) :
    rejectionIndex (constEntropy c h) pos = 0 :=
  (Nat.find_eq_zero _).2 h

theorem drawCoefficients_const (c : ℕ) (h : c < curveOrder) :
    ∀ t pos, (drawCoefficients (constEntropy c h) pos t).1 = List.replicate t c := by
  intro t
  induction t with
  | zero => intro pos; rfl
  | succ k ih =>
      intro pos
      simp [drawCoefficients, generateRandomPrivateKey_const, ih, List.replicate_succ]

theorem drawCoefficients_length (e : Entropy) :
    ∀ t pos, (drawCoefficients e pos t).1.length = t := by
  intro t
  induction t with
  | zero => intro pos; rfl
  | succ k ih => intro pos; simp [drawCoefficients, ih]

/-! ## Signed `mod` (bn.js `mod`, i.e. `Int.tmod`) -/

theorem tmod_neg_ofNat (m n : ℕ) :
    (-(m : ℤ)).tmod (n : ℤ) = -((m : ℤ).tmod (n : ℤ)) := by
  cases m with
  | zero => simp
  | succ k =>
      show (Int.negSucc k).tmod (Int.ofNat n) = -((Int.ofNat (k + 1)).tmod (Int.ofNat n))
      rfl

theorem tmodN_intCast (x : ℤ) :
    ((tmodN x : ℤ) : ZMod curveOrder) = (x : ZMod curveOrder) := by
  have h := Int.tdiv_add_tmod x (curveOrder : ℤ)
  have hx : tmodN x = x - (curveOrder : ℤ) * x.tdiv (curveOrder : ℤ) := by
    unfold tmodN; omega
  rw [hx]
  push_cast
  rw [ZMod.natCast_self]
  ring

theorem invm_natCast (x : ℤ) :
    ((invm x : ℕ) : ZMod curveOrder) = (x : ZMod curveOrder)⁻¹ := by
  unfold invm
  rw [ZMod.natCast_val, ZMod.cast_id]

theorem tmodN_of_nonneg {x : ℤ} (h : 0 ≤ x) : 0 ≤ tmodN x ∧ tmodN x < curveOrder := by
  refine ⟨Int.tmod_nonneg _ h, ?_⟩
  exact Int.tmod_lt_of_pos x (by exact_mod_cast curveOrder_pos)

theorem tmodN_of_nonpos {x : ℤ} (h : x ≤ 0) :
    -(curveOrder : ℤ) < tmodN x ∧ tmodN x ≤ 0 := by
  have hx : x = -(x.natAbs : ℤ) := by omega
  have hneg : tmodN x = -((x.natAbs : ℤ).tmod (curveOrder : ℤ)) := by
    unfold tmodN
    conv_lhs => rw [hx]
    rw [tmod_neg_ofNat]
  have hb := tmodN_of_nonneg (x := (x.natAbs : ℤ)) (by positivity)
  unfold tmodN at hb
  constructor <;> omega

theorem inWindow_zero (b : Bool) : InWindow b 0 := by
  have : (0 : ℤ) < (curveOrder : ℤ) := by exact_mod_cast curveOrder_pos
  cases b <;> exact ⟨by omega, by omega⟩

theorem inWindow_tmodN_of_nonneg {x : ℤ} (h : 0 ≤ x) : InWindow false (tmodN x) := by
  have h1 := tmodN_of_nonneg h
  exact ⟨h1.1, by exact_mod_cast h1.2⟩

theorem inWindow_tmodN_of_nonpos {x : ℤ} (h : x ≤ 0) : InWindow true (tmodN x) := by
  have h1 := tmodN_of_nonpos h
  exact ⟨h1.1, h1.2⟩

/-- Two values of the same window with the same residue are equal. -/
theorem inWindow_unique {b : Bool} {x y : ℤ} (hx : InWindow b x) (hy : InWindow b y)
    (h : (x : ZMod curveOrder) = (y : ZMod curveOrder)) : x = y := by
  have hdvd : ((curveOrder : ℕ) : ℤ) ∣ y - x :=
    ((ZMod.intCast_eq_intCast_iff x y curveOrder).1 h).dvd
  have habs : |y - x| < ((curveOrder : ℕ) : ℤ) := by
    cases b <;>
      · obtain ⟨hx1, hx2⟩ := hx
        obtain ⟨hy1, hy2⟩ := hy
        rw [abs_lt]
        omega
  have := Int.eq_zero_of_abs_lt_dvd hdvd habs
  omega

/-- Adding two values of a window and reducing with the signed `mod` stays in
the window. -/
theorem inWindow_add_tmodN {b : Bool} {x y : ℤ} (hx : InWindow b x) (hy : InWindow b y) :
    InWindow b (tmodN (x + y)) := by
  cases b with
  | false =>
      obtain ⟨hx1, hx2⟩ := hx
      obtain ⟨hy1, hy2⟩ := hy
      exact inWindow_tmodN_of_nonneg (by omega)
  | true =>
      obtain ⟨hx1, hx2⟩ := hx
      obtain ⟨hy1, hy2⟩ := hy
      exact inWindow_tmodN_of_nonpos (by omega)


/-! ## Claim C2 — parameter validation of `generateKeyShares` -/

/-- C2 (amended): `generateKeyShares(n, t)` fails exactly when `t < 1` or
`t > n`; the code has no upper bound on `n`.  When `n < t` the error is the
threshold-exceeds-total one, when `t = 0` (and `t ≤ n`) it is the
threshold-too-small one. -/
theorem claim_C2 (G : Type) [AddCommGroup G] (g : G) (e : Entropy) (pos n t : ℕ) :
    ((generateKeyShares G g e pos n t).isOk = true ↔ 1 ≤ t ∧ t ≤ n) ∧
    (n < t → generateKeyShares G g e pos n t = Except.error FrostError.thresholdExceedsTotal) ∧
    (t ≤ n → t = 0 → generateKeyShares G g e pos n t = Except.error FrostError.thresholdTooSmall) := by
  unfold generateKeyShares
  by_cases h1 : t > n
  · rw [if_pos h1]
    exact ⟨iff_of_false (by simp [Except.isOk, Except.toBool]) (by omega), fun _ => rfl,
      fun h _ => absurd h1 (by omega)⟩
  · rw [if_neg h1]
    by_cases h2 : t < 1
    · rw [if_pos h2]
      exact ⟨iff_of_false (by simp [Except.isOk, Except.toBool]) (by omega), fun hc => absurd hc h1,
        fun _ _ => rfl⟩
    · rw [if_neg h2]
      exact ⟨iff_of_true (by simp [Except.isOk, Except.toBool]) (by omega), fun hc => absurd hc h1,
        fun _ h0 => absurd h0 (by omega)⟩

/-- Witness for C2 at the boundary `(50, 50)` (succeeds) and at `(5, 0)`
(fails with the threshold-too-small error). -/
theorem claim_C2_witness :
    (generateKeyShares PUnit PUnit.unit (constEntropy 1 (by decide)) 0 50 50).isOk = true ∧
    generateKeyShares PUnit PUnit.unit (constEntropy 1 (by decide)) 0 5 0 =
      Except.error FrostError.thresholdTooSmall :=
  ⟨(claim_C2 PUnit PUnit.unit (constEntropy 1 (by decide)) 0 50 50).1.mpr (by decide),
   (claim_C2 PUnit PUnit.unit (constEntropy 1 (by decide)) 0 5 0).2.2 (by decide) rfl⟩

/-- Counterexample to C2 as stated: the claim demands failure for `n = 51`,
but `generateKeyShares(51, 1)` succeeds — the code never checks `n ≤ 50`. -/
theorem claim_C2_counterexample :
    (generateKeyShares PUnit PUnit.unit (constEntropy 1 (by decide)) 0 51 1).isOk = true := rfl

/-! ## Claim C3 — share-count precondition of `combineSignatureShares` -/

/-- C3 (amended): `combineSignatureShares` returns a value exactly when the
share list has length at least `threshold` (distinctness of indices is not
checked); below the threshold it fails carrying `required = threshold` and
`got = len`. -/
theorem claim_C3 (G : Type) (e : Entropy) (pos : ℕ) (H : String → String) (message : String)
    (signatureShares : List SignatureShare) (commitments : List CommitmentPoint)
    (publicShares : List (PublicShare G)) (threshold : ℕ) :
    ((combineSignatureShares G e pos H message signatureShares commitments publicShares
        threshold).isOk = true ↔ threshold ≤ signatureShares.length) ∧
    (signatureShares.length < threshold →
      combineSignatureShares G e pos H message signatureShares commitments publicShares threshold
        = Except.error (FrostError.insufficientShares threshold signatureShares.length)) := by
  unfold combineSignatureShares
  by_cases h : signatureShares.length < threshold
  · rw [if_pos h]
    exact ⟨iff_of_false (by simp [Except.isOk, Except.toBool]) (by omega), fun _ => rfl⟩
  · rw [if_neg h]
    exact ⟨iff_of_true (by simp [Except.isOk, Except.toBool]) (by omega), fun hc => absurd hc h⟩

/-- Witness for C3: one share against a threshold of two fails with
`InsufficientShares(required = 2, got = 1)`. -/
theorem claim_C3_witness :
    combineSignatureShares PUnit (constEntropy 1 (by decide)) 0 (fun s => s) "test"
      [⟨1, 5⟩] [] [] 2 =
      Except.error (FrostError.insufficientShares 2 1) :=
  (claim_C3 PUnit (constEntropy 1 (by decide)) 0 (fun s => s) "test"
      [⟨1, 5⟩] [] [] 2).2 (by decide)

/-- Counterexample to C3 as stated: the claim requires failure unless the
shares carry pairwise distinct indices, but two shares with the same index 1
against a threshold of 2 are accepted — only the length is checked. -/
theorem claim_C3_counterexample :
    (combineSignatureShares PUnit (constEntropy 1 (by decide)) 0 (fun s => s) "test"
      [⟨1, 5⟩, ⟨1, 5⟩] [] [] 2).isOk = true := rfl

/-! ## Claim C4 — the `s` component is not derived from the signing relation -/

/-- C4: the code draws `s` as a fresh random scalar.  At the same message,
shares, commitments and threshold, two runs that differ only in their random
stream produce the same `r` but different `s` — so `s` is not a function of
`r`, the message hash and the group key material, contradicting the
two-component signing relation the specification requires. -/
theorem claim_C4 :
    ((combineSignatureShares PUnit (constEntropy 1 (by decide)) 0 (fun s => s) "test"
        [⟨1, 5⟩] [] [] 1).toOption.map AggregatedSignature.r =
      (combineSignatureShares PUnit (constEntropy 2 (by decide)) 0 (fun s => s) "test"
        [⟨1, 5⟩] [] [] 1).toOption.map AggregatedSignature.r) ∧
    ((combineSignatureShares PUnit (constEntropy 1 (by decide)) 0 (fun s => s) "test"
        [⟨1, 5⟩] [] [] 1).toOption.map AggregatedSignature.s ≠
      (combineSignatureShares PUnit (constEntropy 2 (by decide)) 0 (fun s => s) "test"
        [⟨1, 5⟩] [] [] 1).toOption.map AggregatedSignature.s) :=
  ⟨rfl, by decide⟩

/-! ## Claim C6 — the value of a signature share -/

/-- C6: `generateSignatureShare` returns the share index unchanged and the
value `(nonce + c * share.value) mod order`, where `c` is the hash of the
message hash concatenated with the commitment coordinates in list order. -/
theorem claim_C6 (H : String → String) (message : String) (privateShare : ParticipantShare)
    (nonce : ℕ) (commitments : List CommitmentPoint) (participants : List ℕ) :
    generateSignatureShare H message privateShare nonce commitments participants =
      { index := privateShare.index
        value :=
          (nonce +
              hexToNat (H (H message ++
                commitments.foldl (fun acc c => acc ++ c.x ++ c.y) "")) *
                privateShare.value) % curveOrder } := by
  unfold generateSignatureShare hashMessage calculateBindingFactor
  have key : ∀ a b n : ℕ, (a + b % n) % n = (a + b) % n := by
    intro a b n
    conv_rhs => rw [Nat.add_mod]
    conv_lhs => rw [Nat.add_mod]
    rw [Nat.mod_mod_of_dvd b (dvd_refl n)]
  simp only [key]

/-! ## Claim C8 — rejection sampling range -/

/-- C8 (amended): every value returned by `_generateRandomPrivateKey` lies in
`[0, order - 1]`: all candidates before the accepted one were `≥ order` and
were discarded; the accepted candidate is `< order`.  Zero is not rejected
(the code only tests `gte(order)`), so the range does not exclude 0. -/
theorem claim_C8 (e : Entropy) (pos : ℕ) :
    generateRandomPrivateKey e pos < curveOrder ∧
    ∀ j, j < rejectionIndex e pos → curveOrder ≤ e.stream (pos + j) := by
  refine ⟨generateRandomPrivateKey_lt e pos, fun j hj => ?_⟩
  have := Nat.find_min (e.inRange pos) hj
  omega

/-- Witness for C8 on a concrete stream and position. -/
theorem claim_C8_witness :
    generateRandomPrivateKey (constEntropy 7 (by decide)) 3 < curveOrder ∧
    ∀ j, j < rejectionIndex (constEntropy 7 (by decide)) 3 →
      curveOrder ≤ (constEntropy 7 (by decide)).stream (3 + j) :=
  claim_C8 (constEntropy 7 (by decide)) 3

/-- Counterexample to C8 as stated: a stream whose first candidate is 0 makes
the sampler return 0 — the claim that 0 is never returned fails (only
candidates `≥ order` are redrawn). -/
theorem claim_C8_counterexample :
    generateRandomPrivateKey (constEntropy 0 curveOrder_pos) 0 = 0 := rfl

/-! ## Claim C9 — verification never throws -/

/-- C9: the whole body of `verifySignature` runs inside a `try` block; if the
library computation raises (malformed scalar, off-curve point, arithmetic
exception), the `catch` turns it into the return value `false`, and the
function (being total with a boolean codomain in this embedding) never
propagates an exception. -/
theorem claim_C9 (lib : String → String × String → String × String → Except String Bool)
    (message : String) (signature : String × String) (groupPublicKey : String × String)
    (err : String) (h : lib message signature groupPublicKey = Except.error err) :
    verifySignature lib message signature groupPublicKey = false := by
  unfold verifySignature
  rw [h]

/-- Witness for C9: a library computation that throws on an off-curve point
yields `false`. -/
theorem claim_C9_witness :
    verifySignature (fun _ _ _ => Except.error "point not on curve") "msg" ("1f", "2a")
      ("03", "04") = false :=
  claim_C9 (fun _ _ _ => Except.error "point not on curve") "msg" ("1f", "2a") ("03", "04")
    "point not on curve" rfl

/-! ## Claim C10 — commitments are independent of the private share -/

/-- C10: `generateCommitment` never reads its `privateShare` argument: with
the same random stream it returns identical results for any two shares, and
the commitment point is always `nonce • basepoint`. -/
theorem claim_C10 (G : Type) [AddCommGroup G] (g : G) (e : Entropy) (pos : ℕ)
    (share1 share2 : ParticipantShare) :
    generateCommitment G g e pos share1 = generateCommitment G g e pos share2 ∧
    (generateCommitment G g e pos share1).commitment =
      (generateCommitment G g e pos share1).nonce • g :=
  ⟨rfl, rfl⟩

/-! ## Claim C7 — shape and values of `generateKeyShares` output -/

/-- The share-evaluation fold equals the mod-reduced polynomial sum. -/
theorem evalPolyAt_eq_sum_mod (a : List ℕ) (x : ℕ) :
    evalPolyAt a x = (∑ j ∈ Finset.range a.length, a.getD j 0 * x ^ j) % curveOrder := by
  unfold evalPolyAt
  generalize a.length = m
  induction m with
  | zero => simp
  | succ k ih =>
      rw [List.range_succ, List.foldl_append]
      simp only [List.foldl_cons, List.foldl_nil]
      rw [ih, Finset.sum_range_succ]
      exact (Nat.add_mod _ _ _).symm

/-- C7: for valid `(n, t)`, `generateKeyShares` returns exactly `n` shares
and `n` public shares with indices `1..n`; the `i`-th share value is the
degree-`(t-1)` polynomial evaluation `Σ a_j i^j mod order` over the drawn
coefficients, its public share is that value times the basepoint, and the
group public key is `a_0` times the basepoint. -/
theorem claim_C7 (G : Type) [AddCommGroup G] (g : G) (e : Entropy) (pos n t : ℕ)
    (kss : KeyShareSet G) (h1 : 1 ≤ t) (h2 : t ≤ n)
    (hgen : generateKeyShares G g e pos n t = Except.ok kss) :
    kss.shares.length = n ∧ kss.publicShares.length = n ∧
    kss.threshold = t ∧ kss.total = n ∧
    (∀ i : ℕ, i < n →
      kss.shares.getD i default =
        ⟨i + 1,
          (∑ j ∈ Finset.range t,
            (drawCoefficients e pos t).1.getD j 0 * (i + 1) ^ j) % curveOrder⟩ ∧
      kss.publicShares.getD i ⟨0, 0⟩ =
        ⟨i + 1,
          ((∑ j ∈ Finset.range t,
            (drawCoefficients e pos t).1.getD j 0 * (i + 1) ^ j) % curveOrder) • g⟩) ∧
    kss.groupPublicKey = (drawCoefficients e pos t).1.getD 0 0 • g := by
  unfold generateKeyShares at hgen
  rw [if_neg (by omega), if_neg (by omega)] at hgen
  injection hgen with hgen
  subst hgen
  have hlen := drawCoefficients_length e t pos
  refine ⟨by simp, by simp, rfl, rfl, ?_, rfl⟩
  intro i hi
  constructor
  · rw [List.getD_eq_getElem _ _ (by simpa using hi)]
    simp only [List.getElem_map, List.getElem_range]
    rw [evalPolyAt_eq_sum_mod, hlen]
  · rw [List.getD_eq_getElem _ _ (by simpa using hi)]
    simp only [List.getElem_map, List.getElem_range]
    rw [evalPolyAt_eq_sum_mod, hlen]

/-- Witness for C7 at `(n, t) = (1, 1)` over the trivial group with a
constant stream. -/
theorem claim_C7_witness :
    ([⟨1, 1⟩] : List ParticipantShare).length = 1 ∧
    ([⟨1, PUnit.unit⟩] : List (PublicShare PUnit)).length = 1 ∧
    (1 : ℕ) = 1 ∧ (1 : ℕ) = 1 ∧
    (∀ i : ℕ, i < 1 →
      ([⟨1, 1⟩] : List ParticipantShare).getD i default =
        ⟨i + 1,
          (∑ j ∈ Finset.range 1,
            (drawCoefficients (constEntropy 1 (by decide)) 0 1).1.getD j 0 * (i + 1) ^ j) %
              curveOrder⟩ ∧
      ([⟨1, PUnit.unit⟩] : List (PublicShare PUnit)).getD i ⟨0, 0⟩ =
        ⟨i + 1,
          ((∑ j ∈ Finset.range 1,
            (drawCoefficients (constEntropy 1 (by decide)) 0 1).1.getD j 0 * (i + 1) ^ j) %
              curveOrder) • PUnit.unit⟩) ∧
    PUnit.unit = (drawCoefficients (constEntropy 1 (by decide)) 0 1).1.getD 0 0 • PUnit.unit := by
  have hd : (drawCoefficients (constEntropy 1 (by decide)) 0 1).1 = [1] := by
    simpa using drawCoefficients_const 1 (by decide) 1 0
  have he : evalPolyAt [1] 1 = 1 := by decide
  have hgen : generateKeyShares PUnit PUnit.unit (constEntropy 1 (by decide)) 0 1 1 =
      Except.ok ⟨[⟨1, 1⟩], [⟨1, PUnit.unit⟩], PUnit.unit, 1, 1⟩ := by
    unfold generateKeyShares
    rw [if_neg (by decide), if_neg (by decide)]
    simp [hd, List.range_succ, he]
  have happ := claim_C7 PUnit PUnit.unit (constEntropy 1 (by decide)) 0 1 1
    ⟨[⟨1, 1⟩], [⟨1, PUnit.unit⟩], PUnit.unit, 1, 1⟩ (by decide) (by decide) hgen
  simpa using happ

/-! ## Claim C5 — order independence of `combineSignatureShares`

The aggregation works on bn.js signed residues, so the fold value is not
literally a sum in `ZMod curveOrder`: it is the unique representative, in a
sign window fixed by the parity of the node count, of that sum.  Both the
window and the residue are invariant under permuting the shares, which gives
order independence of the full output. -/

theorem sign_mul_nonpos {a b : ℤ} (ha : 0 ≤ a) (hb : b ≤ 0) : a * b ≤ 0 := by
  have := mul_le_mul_of_nonneg_left hb ha
  simpa using this

theorem sign_mul3_nonpos {a b c : ℤ} (ha : 0 ≤ a) (hb : b ≤ 0) (hc : 0 ≤ c) :
    a * b * c ≤ 0 := by
  have h1 := sign_mul_nonpos ha hb
  have := mul_le_mul_of_nonneg_right h1 hc
  simpa using this

theorem sign_mul3_nonneg {a b c : ℤ} (ha : a ≤ 0) (hb : b ≤ 0) (hc : 0 ≤ c) :
    0 ≤ a * b * c := by
  have h1 : 0 ≤ a * b := by
    have := mul_nonneg (neg_nonneg.2 ha) (neg_nonneg.2 hb)
    rw [neg_mul_neg] at this
    exact this
  exact mul_nonneg h1 hc

theorem lagStep_cast (xi : ℕ) (coeff : ℤ) (xj : ℕ) :
    ((lagStep xi coeff xj : ℤ) : ZMod curveOrder) =
      (coeff : ZMod curveOrder) *
        ((-(xj : ZMod curveOrder)) *
          ((xi : ZMod curveOrder) - (xj : ZMod curveOrder))⁻¹) := by
  unfold lagStep
  rw [tmodN_intCast]
  push_cast [invm_natCast, tmodN_intCast]
  ring

theorem lagrangeOne_foldl_cast (xi : ℕ) (others : List ℕ) :
    ∀ init : ℤ,
      ((others.foldl (lagStep xi) init : ℤ) : ZMod curveOrder) =
        (init : ZMod curveOrder) * lagrangeCastProd xi others := by
  induction others with
  | nil => intro init; simp [lagrangeCastProd]
  | cons xj rest ih =>
      intro init
      rw [List.foldl_cons, ih, lagStep_cast]
      unfold lagrangeCastProd
      rw [List.map_cons, List.prod_cons]
      ring

theorem lagrangeOne_cast (xi : ℕ) (others : List ℕ) :
    ((lagrangeOne xi others : ℤ) : ZMod curveOrder) = lagrangeCastProd xi others := by
  unfold lagrangeOne
  rw [lagrangeOne_foldl_cast]
  simp

theorem lagStep_window (xi : ℕ) {b : Bool} {coeff : ℤ} (hc : InWindow b coeff) (xj : ℕ) :
    InWindow (!b) (lagStep xi coeff xj) := by
  unfold lagStep
  have hnum : tmodN (0 - (xj : ℤ)) ≤ 0 :=
    (tmodN_of_nonpos (by omega)).2
  have hinv : (0 : ℤ) ≤ ((invm (tmodN ((xi : ℤ) - (xj : ℤ))) : ℕ) : ℤ) :=
    Int.natCast_nonneg _
  cases b with
  | false => exact inWindow_tmodN_of_nonpos (sign_mul3_nonpos hc.1 hnum hinv)
  | true => exact inWindow_tmodN_of_nonneg (sign_mul3_nonneg hc.2 hnum hinv)

theorem lagrangeOne_foldl_window (xi : ℕ) (others : List ℕ) :
    ∀ (b : Bool) (init : ℤ), InWindow b init →
      InWindow (b ^^ (others.length % 2 == 1)) (others.foldl (lagStep xi) init) := by
  induction others with
  | nil => intro b init h; simpa using h
  | cons xj rest ih =>
      intro b init h
      rw [List.foldl_cons]
      have h2 := ih (!b) (lagStep xi init xj) (lagStep_window xi h xj)
      have hsplit : rest.length % 2 = 0 ∨ rest.length % 2 = 1 := by omega
      have hpar : ((xj :: rest).length % 2 == 1) = !(rest.length % 2 == 1) := by
        rcases hsplit with h0 | h0 <;> simp [List.length_cons, Nat.add_mod, h0]
      rw [hpar]
      have hxor : (b ^^ !(rest.length % 2 == 1)) = (!b ^^ (rest.length % 2 == 1)) := by
        cases b <;> cases hsplit2 : (rest.length % 2 == 1) <;> rfl
      rw [hxor]
      exact h2

theorem lagrangeOne_window (xi : ℕ) (others : List ℕ) :
    InWindow (others.length % 2 == 1) (lagrangeOne xi others) := by
  have hone : InWindow false (1 : ℤ) :=
    ⟨by omega, by exact_mod_cast (by decide : (1 : ℕ) < curveOrder)⟩
  have h := lagrangeOne_foldl_window xi others false 1 hone
  simpa [lagrangeOne] using h

theorem lagrangeOne_perm (xi : ℕ) {o₁ o₂ : List ℕ} (hp : o₁.Perm o₂) :
    lagrangeOne xi o₁ = lagrangeOne xi o₂ := by
  have hl : o₁.length = o₂.length := hp.length_eq
  have h2 : InWindow (o₁.length % 2 == 1) (lagrangeOne xi o₂) := by
    rw [hl]; exact lagrangeOne_window xi o₂
  refine inWindow_unique (lagrangeOne_window xi o₁) h2 ?_
  rw [lagrangeOne_cast, lagrangeOne_cast]
  unfold lagrangeCastProd
  exact List.Perm.prod_eq (hp.map (fun xj : ℕ =>
    (-(xj : ZMod curveOrder)) * ((xi : ZMod curveOrder) - (xj : ZMod curveOrder))⁻¹))

theorem eraseIdx_perm_erase (l : List ℕ) (i : ℕ) (h : i < l.length) :
    (l.eraseIdx i).Perm (l.erase (l.getD i 0)) := by
  rw [List.getD_eq_getElem l 0 h, List.eraseIdx_eq_take_drop_succ]
  have hmem : l[i] ∈ l := List.getElem_mem h
  have h1 : l.Perm (l[i] :: (l.take i ++ l.drop (i + 1))) := by
    conv_lhs => rw [← List.take_append_drop i l, ← List.getElem_cons_drop l i h]
    exact List.perm_middle
  have h2 : l.Perm (l[i] :: l.erase l[i]) := List.perm_cons_erase hmem
  exact (h1.symm.trans h2).cons_inv

theorem foldl_addTmod (b : Bool) (terms : List ℤ) :
    ∀ init : ℤ, InWindow b init → (∀ x ∈ terms, InWindow b x) →
      InWindow b (terms.foldl addTmod init) ∧
      ((terms.foldl addTmod init : ℤ) : ZMod curveOrder) =
        (init : ZMod curveOrder) +
          (terms.map (fun x : ℤ => (x : ZMod curveOrder))).sum := by
  induction terms with
  | nil => intro init h _; exact ⟨h, by simp⟩
  | cons x rest ih =>
      intro init h hall
      rw [List.foldl_cons]
      have hx := hall x (List.mem_cons_self x rest)
      have hrest : ∀ y ∈ rest, InWindow b y := fun y hy => hall y (List.mem_cons_of_mem x hy)
      have hstep : InWindow b (addTmod init x) := inWindow_add_tmodN h hx
      obtain ⟨hw, hc⟩ := ih (addTmod init x) hstep hrest
      refine ⟨hw, ?_⟩
      rw [hc]
      unfold addTmod
      rw [tmodN_intCast]
      push_cast
      rw [List.map_cons, List.sum_cons]
      ring

theorem term_window {b : Bool} {lag : ℤ} (hlag : InWindow b lag) (v : ℕ) :
    InWindow b (tmodN ((v : ℤ) * lag)) := by
  cases b with
  | false => exact inWindow_tmodN_of_nonneg (mul_nonneg (Int.natCast_nonneg v) hlag.1)
  | true => exact inWindow_tmodN_of_nonpos (sign_mul_nonpos (Int.natCast_nonneg v) hlag.2)

theorem combineLoop_eq_foldl (values : List ℕ) (lag : List ℤ) :
    combineLoop values lag =
      ((List.range values.length).map
        (fun i => tmodN ((values.getD i 0 : ℤ) * lag.getD i 0))).foldl addTmod 0 := by
  unfold combineLoop addTmod
  rw [List.foldl_map]

theorem combine_terms_eq (l : List SignatureShare) :
    (List.range l.length).map
        (fun i => tmodN ((((l.map (fun s => s.value)).getD i 0 : ℕ) : ℤ) *
          (calculateLagrangeCoefficients (l.map (fun s => s.index))).getD i 0)) =
      l.map (fun s => tmodN ((s.value : ℤ) *
        lagrangeOne s.index ((l.map (fun s2 => s2.index)).erase s.index))) := by
  apply List.ext_getElem
  · simp
  intro n h1 h2
  have hn : n < l.length := by simpa using h2
  have hnm : n < (l.map (fun s => s.value)).length := by simpa using hn
  have hni : n < (l.map (fun s => s.index)).length := by simpa using hn
  have hnl : n <
      (calculateLagrangeCoefficients (l.map (fun s => s.index))).length := by
    simpa [calculateLagrangeCoefficients] using hn
  simp only [List.getElem_map, List.getElem_range]
  rw [List.getD_eq_getElem _ _ hnm, List.getD_eq_getElem _ _ hnl]
  simp only [List.getElem_map]
  unfold calculateLagrangeCoefficients
  rw [List.getElem_map, List.getElem_range]
  have hperm := eraseIdx_perm_erase (l.map (fun s => s.index)) n hni
  rw [lagrangeOne_perm _ hperm]
  rw [List.getD_eq_getElem _ _ hni, List.getElem_map]

theorem combineLoop_perm (l l₂ : List SignatureShare) (hp : l.Perm l₂) :
    combineLoop (l.map (fun s => s.value))
        (calculateLagrangeCoefficients (l.map (fun s => s.index))) =
      combineLoop (l₂.map (fun s => s.value))
        (calculateLagrangeCoefficients (l₂.map (fun s => s.index))) := by
  have hlen : l.length = l₂.length := hp.length_eq
  have h1 := combineLoop_eq_foldl (l.map (fun s => s.value))
    (calculateLagrangeCoefficients (l.map (fun s => s.index)))
  have h2 := combineLoop_eq_foldl (l₂.map (fun s => s.value))
    (calculateLagrangeCoefficients (l₂.map (fun s => s.index)))
  rw [List.length_map] at h1 h2
  rw [h1, h2, combine_terms_eq, combine_terms_eq]
  have hcongr : l₂.map (fun s => tmodN ((s.value : ℤ) *
      lagrangeOne s.index ((l₂.map (fun s2 => s2.index)).erase s.index))) =
    l₂.map (fun s => tmodN ((s.value : ℤ) *
      lagrangeOne s.index ((l.map (fun s2 => s2.index)).erase s.index))) := by
    refine List.map_congr_left (fun s hs => ?_)
    have hpe : ((l₂.map (fun s2 => s2.index)).erase s.index).Perm
        ((l.map (fun s2 => s2.index)).erase s.index) :=
      List.Perm.erase s.index (hp.symm.map _)
    rw [lagrangeOne_perm _ hpe]
  rw [hcongr]
  have hperm : (l.map (fun s => tmodN ((s.value : ℤ) *
      lagrangeOne s.index ((l.map (fun s2 => s2.index)).erase s.index)))).Perm
    (l₂.map (fun s => tmodN ((s.value : ℤ) *
      lagrangeOne s.index ((l.map (fun s2 => s2.index)).erase s.index)))) := hp.map _
  have hwl : ∀ x ∈ l.map (fun s => tmodN ((s.value : ℤ) *
      lagrangeOne s.index ((l.map (fun s2 => s2.index)).erase s.index))),
      InWindow ((l.length - 1) % 2 == 1) x := by
    intro x hx
    obtain ⟨s, hs, rfl⟩ := List.mem_map.1 hx
    have hmem : s.index ∈ l.map (fun s2 => s2.index) := List.mem_map_of_mem _ hs
    have hle : ((l.map (fun s2 => s2.index)).erase s.index).length = l.length - 1 := by
      rw [List.length_erase_of_mem hmem, List.length_map]
    have hwin := lagrangeOne_window s.index ((l.map (fun s2 => s2.index)).erase s.index)
    rw [hle] at hwin
    exact term_window hwin s.value
  have hwl2 : ∀ x ∈ l₂.map (fun s => tmodN ((s.value : ℤ) *
      lagrangeOne s.index ((l.map (fun s2 => s2.index)).erase s.index))),
      InWindow ((l.length - 1) % 2 == 1) x := by
    intro x hx
    obtain ⟨s, hs, rfl⟩ := List.mem_map.1 hx
    have hsl : s ∈ l := (hp.mem_iff).2 hs
    have hmem : s.index ∈ l.map (fun s2 => s2.index) := List.mem_map_of_mem _ hsl
    have hle : ((l.map (fun s2 => s2.index)).erase s.index).length = l.length - 1 := by
      rw [List.length_erase_of_mem hmem, List.length_map]
    have hwin := lagrangeOne_window s.index ((l.map (fun s2 => s2.index)).erase s.index)
    rw [hle] at hwin
    exact term_window hwin s.value
  obtain ⟨hf1, hc1⟩ := foldl_addTmod ((l.length - 1) % 2 == 1) _ 0
    (inWindow_zero _) hwl
  obtain ⟨hf2, hc2⟩ := foldl_addTmod ((l.length - 1) % 2 == 1) _ 0
    (inWindow_zero _) hwl2
  refine inWindow_unique hf1 hf2 ?_
  rw [hc1, hc2]
  rw [(hperm.map (fun x : ℤ => (x : ZMod curveOrder))).sum_eq]

/-- C5: for a fixed multiset of signature shares, `combineSignatureShares` is
order-independent: permuting the `signatureShares` list yields an equal
`AggregatedSignature` (for the same random stream, which only feeds the
`s` component), all components included; below the threshold the two calls
also fail identically. -/
theorem claim_C5 (G : Type) (e : Entropy) (pos : ℕ) (H : String → String) (message : String)
    (shares shares₂ : List SignatureShare) (commitments : List CommitmentPoint)
    (publicShares : List (PublicShare G)) (threshold : ℕ) (hp : shares.Perm shares₂) :
    combineSignatureShares G e pos H message shares commitments publicShares threshold =
      combineSignatureShares G e pos H message shares₂ commitments publicShares threshold := by
  have hlen : shares.length = shares₂.length := hp.length_eq
  unfold combineSignatureShares
  rw [← hlen]
  by_cases h : shares.length < threshold
  · rw [if_pos h, if_pos h]
  · rw [if_neg h, if_neg h]
    have hcomb := combineLoop_perm shares shares₂ hp
    simp only [hcomb]

/-- Witness for C5: swapping the shares of participants 1 and 3 at
threshold 2 gives the same aggregated signature. -/
theorem claim_C5_witness :
    combineSignatureShares PUnit (constEntropy 1 (by decide)) 0 (fun s => s) "test"
        [⟨1, 11⟩, ⟨3, 7⟩] [] [] 2 =
      combineSignatureShares PUnit (constEntropy 1 (by decide)) 0 (fun s => s) "test"
        [⟨3, 7⟩, ⟨1, 11⟩] [] [] 2 :=
  claim_C5 PUnit (constEntropy 1 (by decide)) 0 (fun s => s) "test"
    [⟨1, 11⟩, ⟨3, 7⟩] [⟨3, 7⟩, ⟨1, 11⟩] [] [] 2 (by decide)

/-! ## Claim C1 — any `t` shares reconstruct the group secret

The code interpolates with signed bn.js residues; modulo the curve order the
computed Lagrange coefficients are the textbook ones, so the reconstruction
is an instance of Lagrange interpolation at 0.  The interpolation identity
comes from the treatment over `ℚ`; it is transported to `ZMod curveOrder`
by clearing the denominators (whose residues are units because participant
indices are at most 50 and the curve order has no prime factor that small),
avoiding any primality argument for the order. -/

theorem coprime_small (d : ℕ) (h1 : 1 ≤ d) (h2 : d ≤ 50) : Nat.Coprime d curveOrder := by
  have h : ∀ x ∈ Finset.Icc 1 50, Nat.Coprime x curveOrder := by decide
  exact h d (Finset.mem_Icc.2 ⟨h1, h2⟩)

theorem isUnit_castDiff_of_lt {x y : ℕ} (hx : x ≤ 50) (hlt : y < x) :
    IsUnit ((x : ZMod curveOrder) - (y : ZMod curveOrder)) := by
  rw [← Nat.cast_sub hlt.le]
  exact (ZMod.isUnit_iff_coprime _ curveOrder).2 (coprime_small _ (by omega) (by omega))

theorem isUnit_castDiff {x y : ℕ} (hx : x ≤ 50) (hy : y ≤ 50) (hne : x ≠ y) :
    IsUnit ((x : ZMod curveOrder) - (y : ZMod curveOrder)) := by
  rcases Nat.lt_or_ge y x with h | h
  · exact isUnit_castDiff_of_lt hx h
  · have hne2 : x < y := by omega
    have := (isUnit_castDiff_of_lt hy hne2).neg
    simpa using this

theorem evalPolyAt_cast (a : List ℕ) (x : ℕ) :
    ((evalPolyAt a x : ℕ) : ZMod curveOrder) =
      ∑ j ∈ Finset.range a.length,
        (a.getD j 0 : ZMod curveOrder) * (x : ZMod curveOrder) ^ j := by
  rw [evalPolyAt_eq_sum_mod, ZMod.natCast_mod]
  push_cast
  rfl

theorem combineLoop_cast_aux (values : List ℕ) (lag : List ℤ) :
    ∀ m : ℕ,
      (((List.range m).foldl
          (fun acc i => tmodN (acc + tmodN ((values.getD i 0 : ℤ) * lag.getD i 0))) 0 : ℤ) :
            ZMod curveOrder) =
        ∑ i ∈ Finset.range m,
          ((values.getD i 0 : ℕ) : ZMod curveOrder) *
            ((lag.getD i 0 : ℤ) : ZMod curveOrder) := by
  intro m
  induction m with
  | zero => simp
  | succ k ih =>
      rw [List.range_succ, List.foldl_append, List.foldl_cons, List.foldl_nil,
        Finset.sum_range_succ, ← ih, tmodN_intCast]
      push_cast [tmodN_intCast]
      ring

theorem combineLoop_cast (values : List ℕ) (lag : List ℤ) :
    ((combineLoop values lag : ℤ) : ZMod curveOrder) =
      ∑ i ∈ Finset.range values.length,
        ((values.getD i 0 : ℕ) : ZMod curveOrder) *
          ((lag.getD i 0 : ℤ) : ZMod curveOrder) := by
  unfold combineLoop
  exact combineLoop_cast_aux values lag values.length

theorem toFinset_erase_of_nodup {l : List ℕ} (hl : l.Nodup) (a : ℕ) :
    (l.erase a).toFinset = l.toFinset.erase a := by
  ext b
  simp only [List.mem_toFinset, Finset.mem_erase]
  exact hl.mem_erase_iff

theorem sum_range_getD {M : Type} [AddCommMonoid M] (l : List ℕ) (F : ℕ → M) :
    ∑ i ∈ Finset.range l.length, F (l.getD i 0) = (l.map F).sum := by
  induction l generalizing F with
  | nil => simp
  | cons a tl ih =>
      rw [List.length_cons, Finset.sum_range_succ', List.map_cons, List.sum_cons]
      simp only [List.getD_cons_succ, List.getD_cons_zero]
      rw [ih (fun x => F x)]
      exact add_comm _ _

/-- Lagrange interpolation at 0 over `ℚ`: a polynomial of degree below the
node count is recovered at 0 by the textbook coefficients. -/
theorem rat_interp_zero (s : Finset ℕ) (f : Polynomial ℚ)
    (hdeg : f.degree < (s.card : WithBot ℕ)) :
    Polynomial.eval 0 f =
      ∑ x ∈ s, Polynomial.eval ((x : ℚ)) f *
        ∏ y ∈ s.erase x, (((x : ℚ) - (y : ℚ))⁻¹ * (-(y : ℚ))) := by
  classical
  have hinj : Set.InjOn (fun m : ℕ => (m : ℚ)) ↑s := Nat.cast_injective.injOn
  have hint := Lagrange.eq_interpolate hinj hdeg
  conv_lhs => rw [hint]
  rw [Lagrange.interpolate_apply, Polynomial.eval_finset_sum]
  refine Finset.sum_congr rfl (fun x hx => ?_)
  rw [Polynomial.eval_mul, Polynomial.eval_C]
  congr 1
  rw [Lagrange.basis, Polynomial.eval_prod]
  refine Finset.prod_congr rfl (fun y hy => ?_)
  simp [Lagrange.basisDivisor]

/-- The interpolation identity at 0 over `ℚ` for a polynomial with natural
coefficients, in the normal form the code computes. -/
theorem rat_lagrange_eval_zero (t : ℕ) (c : ℕ → ℕ) (s : Finset ℕ) (hpos : 1 ≤ t)
    (hcard : t ≤ s.card) :
    (c 0 : ℚ) =
      ∑ x ∈ s, (∑ j ∈ Finset.range t, (c j : ℚ) * (x : ℚ) ^ j) *
        ∏ y ∈ s.erase x, (((x : ℚ) - (y : ℚ))⁻¹ * (-(y : ℚ))) := by
  classical
  have hdeg : (∑ j ∈ Finset.range t, Polynomial.C ((c j : ℚ)) * Polynomial.X ^ j).degree <
      (s.card : WithBot ℕ) := by
    rw [← Fin.sum_univ_eq_sum_range (fun j => Polynomial.C ((c j : ℚ)) * Polynomial.X ^ j) t]
    exact lt_of_lt_of_le (Polynomial.degree_sum_fin_lt _) (by exact_mod_cast hcard)
  have h := rat_interp_zero s _ hdeg
  have h0 : Polynomial.eval 0
      (∑ j ∈ Finset.range t, Polynomial.C ((c j : ℚ)) * Polynomial.X ^ j) = (c 0 : ℚ) := by
    rw [Polynomial.eval_finset_sum]
    simp only [Polynomial.eval_mul, Polynomial.eval_C, Polynomial.eval_pow, Polynomial.eval_X]
    rw [Finset.sum_eq_single 0]
    · simp
    · intro j hj hne
      simp [zero_pow hne]
    · intro hne
      exact absurd (Finset.mem_range.2 (by omega)) hne
  have hnode : ∀ x : ℕ, Polynomial.eval ((x : ℚ))
      (∑ j ∈ Finset.range t, Polynomial.C ((c j : ℚ)) * Polynomial.X ^ j) =
      ∑ j ∈ Finset.range t, (c j : ℚ) * (x : ℚ) ^ j := by
    intro x
    rw [Polynomial.eval_finset_sum]
    simp
  rw [h0] at h
  rw [h]
  exact Finset.sum_congr rfl (fun x hx => by rw [hnode])

/-- The denominator-free interpolation identity over `ℤ`, obtained from the
rational one by clearing every denominator. -/
theorem int_lagrange_identity (t : ℕ) (c : ℕ → ℕ) (s : Finset ℕ) (hpos : 1 ≤ t)
    (hcard : t ≤ s.card) :
    ∑ x ∈ s, ((∑ j ∈ Finset.range t, (c j : ℤ) * (x : ℤ) ^ j) *
        (∏ y ∈ s.erase x, -(y : ℤ)) *
        ∏ m ∈ s.erase x, ∏ y ∈ s.erase m, ((m : ℤ) - (y : ℤ))) =
      (c 0 : ℤ) * ∏ m ∈ s, ∏ y ∈ s.erase m, ((m : ℤ) - (y : ℤ)) := by
  classical
  have hinj : Function.Injective ((↑) : ℤ → ℚ) := Int.cast_injective
  apply hinj
  push_cast
  have hq := rat_lagrange_eval_zero t c s hpos hcard
  have hDne : ∀ x ∈ s, (∏ y ∈ s.erase x, ((x : ℚ) - (y : ℚ))) ≠ 0 := by
    intro x hx
    rw [Finset.prod_ne_zero_iff]
    intro y hy
    exact sub_ne_zero_of_ne
      (Nat.cast_injective.ne (Ne.symm (Finset.mem_erase.1 hy).1))
  have hterm : ∀ x ∈ s,
      (∏ y ∈ s.erase x, (((x : ℚ) - (y : ℚ))⁻¹ * (-(y : ℚ)))) *
        (∏ m ∈ s, ∏ y ∈ s.erase m, ((m : ℚ) - (y : ℚ))) =
      (∏ y ∈ s.erase x, -(y : ℚ)) *
        ∏ m ∈ s.erase x, ∏ y ∈ s.erase m, ((m : ℚ) - (y : ℚ)) := by
    intro x hx
    rw [Finset.prod_mul_distrib, Finset.prod_inv_distrib,
      ← Finset.mul_prod_erase s (fun m => ∏ y ∈ s.erase m, ((m : ℚ) - (y : ℚ))) hx]
    have hD := hDne x hx
    field_simp
    ring
  have key : (c 0 : ℚ) * (∏ m ∈ s, ∏ y ∈ s.erase m, ((m : ℚ) - (y : ℚ))) =
      ∑ x ∈ s, ((∑ j ∈ Finset.range t, (c j : ℚ) * (x : ℚ) ^ j) *
        (∏ y ∈ s.erase x, -(y : ℚ)) *
        ∏ m ∈ s.erase x, ∏ y ∈ s.erase m, ((m : ℚ) - (y : ℚ))) := by
    rw [hq, Finset.sum_mul]
    refine Finset.sum_congr rfl (fun x hx => ?_)
    rw [mul_assoc, hterm x hx, ← mul_assoc]
  rw [← key]

/-- The interpolation identity in `ZMod curveOrder`: with nodes bounded by
50 the denominators are units, so the textbook Lagrange combination of the
polynomial values at the nodes recovers the constant coefficient. -/
theorem zmod_lagrange_identity (t : ℕ) (c : ℕ → ℕ) (s : Finset ℕ) (hpos : 1 ≤ t)
    (hcard : t ≤ s.card) (hmem : ∀ x ∈ s, 1 ≤ x ∧ x ≤ 50) :
    ∑ x ∈ s, (∑ j ∈ Finset.range t, (c j : ZMod curveOrder) * (x : ZMod curveOrder) ^ j) *
        ∏ y ∈ s.erase x,
          ((-(y : ZMod curveOrder)) *
            ((x : ZMod curveOrder) - (y : ZMod curveOrder))⁻¹) =
      (c 0 : ZMod curveOrder) := by
  classical
  have hunit : ∀ x ∈ s, ∀ y ∈ s.erase x,
      IsUnit ((x : ZMod curveOrder) - (y : ZMod curveOrder)) := by
    intro x hx y hy
    obtain ⟨hyne, hys⟩ := Finset.mem_erase.1 hy
    exact isUnit_castDiff (hmem x hx).2 (hmem y hys).2 (Ne.symm hyne)
  have hD : ∀ x ∈ s,
      IsUnit (∏ y ∈ s.erase x, ((x : ZMod curveOrder) - (y : ZMod curveOrder))) :=
    fun x hx =>
      Finset.prod_induction _ IsUnit (fun _ _ => IsUnit.mul) isUnit_one (hunit x hx)
  have hW : IsUnit (∏ m ∈ s, ∏ y ∈ s.erase m, ((m : ZMod curveOrder) - (y : ZMod curveOrder))) :=
    Finset.prod_induction _ IsUnit (fun _ _ => IsUnit.mul) isUnit_one hD
  have hz := int_lagrange_identity t c s hpos hcard
  have hzc := congrArg (fun z : ℤ => ((z : ZMod curveOrder))) hz
  push_cast at hzc
  refine hW.mul_right_cancel ?_
  rw [Finset.sum_mul, ← hzc]
  refine Finset.sum_congr rfl (fun x hx => ?_)
  have hLD : (∏ y ∈ s.erase x,
        ((-(y : ZMod curveOrder)) * ((x : ZMod curveOrder) - (y : ZMod curveOrder))⁻¹)) *
      (∏ y ∈ s.erase x, ((x : ZMod curveOrder) - (y : ZMod curveOrder))) =
      ∏ y ∈ s.erase x, -(y : ZMod curveOrder) := by
    rw [← Finset.prod_mul_distrib]
    refine Finset.prod_congr rfl (fun y hy => ?_)
    rw [mul_assoc, ZMod.inv_mul_of_unit _ (hunit x hx y hy), mul_one]
  rw [← Finset.mul_prod_erase s
    (fun m => ∏ y ∈ s.erase m, ((m : ZMod curveOrder) - (y : ZMod curveOrder))) hx]
  calc (∑ j ∈ Finset.range t, (c j : ZMod curveOrder) * (x : ZMod curveOrder) ^ j) *
        (∏ y ∈ s.erase x,
          ((-(y : ZMod curveOrder)) * ((x : ZMod curveOrder) - (y : ZMod curveOrder))⁻¹)) *
        ((∏ y ∈ s.erase x, ((x : ZMod curveOrder) - (y : ZMod curveOrder))) *
          ∏ m ∈ (s.erase x), ∏ y ∈ s.erase m, ((m : ZMod curveOrder) - (y : ZMod curveOrder))) =
      (∑ j ∈ Finset.range t, (c j : ZMod curveOrder) * (x : ZMod curveOrder) ^ j) *
        ((∏ y ∈ s.erase x,
          ((-(y : ZMod curveOrder)) * ((x : ZMod curveOrder) - (y : ZMod curveOrder))⁻¹)) *
          (∏ y ∈ s.erase x, ((x : ZMod curveOrder) - (y : ZMod curveOrder)))) *
        ∏ m ∈ (s.erase x), ∏ y ∈ s.erase m, ((m : ZMod curveOrder) - (y : ZMod curveOrder)) := by
        ring
    _ = (∑ j ∈ Finset.range t, (c j : ZMod curveOrder) * (x : ZMod curveOrder) ^ j) *
        (∏ y ∈ s.erase x, -(y : ZMod curveOrder)) *
        ∏ m ∈ (s.erase x), ∏ y ∈ s.erase m, ((m : ZMod curveOrder) - (y : ZMod curveOrder)) := by
        rw [hLD]

/-- The code-level reconstruction: feeding any selection of key shares with
distinct indices in `[1, 50]`, at least as many as there are coefficients,
through `_calculateLagrangeCoefficients` and the aggregation loop yields the
constant coefficient modulo the curve order. -/
theorem reconstruct_core (a : List ℕ) (sel : List ParticipantShare) (ha : 1 ≤ a.length)
    (hval : ∀ p ∈ sel, (1 ≤ p.index ∧ p.index ≤ 50) ∧ p.value = evalPolyAt a p.index)
    (hnd : (sel.map (fun p => p.index)).Nodup)
    (hk : a.length ≤ sel.length) :
    ((interpolateAtZero (sel.map (fun p => (p.index, p.value))) : ℤ) : ZMod curveOrder) =
      (a.getD 0 0 : ZMod curveOrder) := by
  classical
  unfold interpolateAtZero
  rw [List.map_map, List.map_map]
  have hv : sel.map (Prod.snd ∘ (fun p : ParticipantShare => (p.index, p.value))) =
      sel.map (fun p => p.value) := List.map_congr_left (fun p _ => rfl)
  have hi : sel.map (Prod.fst ∘ (fun p : ParticipantShare => (p.index, p.value))) =
      sel.map (fun p => p.index) := List.map_congr_left (fun p _ => rfl)
  rw [hv, hi, combineLoop_cast, List.length_map]
  have hstep : ∀ i ∈ Finset.range sel.length,
      (((sel.map (fun p => p.value)).getD i 0 : ℕ) : ZMod curveOrder) *
        (((calculateLagrangeCoefficients (sel.map (fun p => p.index))).getD i 0 : ℤ) :
          ZMod curveOrder) =
      (fun x : ℕ => ((evalPolyAt a x : ℕ) : ZMod curveOrder) *
        lagrangeCastProd x ((sel.map (fun p => p.index)).erase x))
        ((sel.map (fun p => p.index)).getD i 0) := by
    intro i hi2
    have hi3 : i < sel.length := Finset.mem_range.1 hi2
    have hi4 : i < (sel.map (fun p => p.value)).length := by simpa using hi3
    have hi5 : i < (sel.map (fun p => p.index)).length := by simpa using hi3
    have hi6 : i < (calculateLagrangeCoefficients (sel.map (fun p => p.index))).length := by
      simpa [calculateLagrangeCoefficients] using hi3
    rw [List.getD_eq_getElem _ _ hi4, List.getD_eq_getElem _ _ hi6,
      List.getD_eq_getElem _ _ hi5]
    simp only [List.getElem_map]
    have hmem : sel[i] ∈ sel := List.getElem_mem hi3
    obtain ⟨hbounds, hvalue⟩ := hval (sel[i]) hmem
    rw [hvalue]
    unfold calculateLagrangeCoefficients
    rw [List.getElem_map, List.getElem_range]
    rw [lagrangeOne_perm _ (eraseIdx_perm_erase (sel.map (fun p => p.index)) i hi5)]
    rw [lagrangeOne_cast]
    rw [List.getD_eq_getElem _ _ hi5, List.getElem_map]
  rw [Finset.sum_congr rfl hstep]
  have hrange : sel.length = (sel.map (fun p => p.index)).length := by
    rw [List.length_map]
  rw [hrange, sum_range_getD (sel.map (fun p => p.index))
    (fun x : ℕ => ((evalPolyAt a x : ℕ) : ZMod curveOrder) *
      lagrangeCastProd x ((sel.map (fun p => p.index)).erase x)),
    ← List.sum_toFinset _ hnd]
  have hcard2 : a.length ≤ (sel.map (fun p => p.index)).toFinset.card := by
    rw [List.toFinset_card_of_nodup hnd, List.length_map]
    exact hk
  have hmem2 : ∀ x ∈ (sel.map (fun p => p.index)).toFinset, 1 ≤ x ∧ x ≤ 50 := by
    intro x hx
    obtain ⟨p, hp, rfl⟩ := List.mem_map.1 (List.mem_toFinset.1 hx)
    exact (hval p hp).1
  have hfinal := zmod_lagrange_identity a.length (fun j => a.getD j 0)
    (sel.map (fun p => p.index)).toFinset ha hcard2 hmem2
  rw [← hfinal]
  refine Finset.sum_congr rfl (fun x hx => ?_)
  rw [evalPolyAt_cast]
  congr 1
  unfold lagrangeCastProd
  rw [← List.prod_toFinset _ (hnd.erase x), toFinset_erase_of_nodup hnd x]

/-- Two scalars with the same residue act identically on a point killed by
the curve order. -/
theorem zsmul_eq_nsmul_of_cast_eq {G : Type} [AddCommGroup G] (g : G)
    (hg : (curveOrder : ℕ) • g = 0) {x : ℤ} {m : ℕ}
    (h : ((x : ℤ) : ZMod curveOrder) = (m : ZMod curveOrder)) : x • g = m • g := by
  have h2 : ((x : ℤ) : ZMod curveOrder) = (((m : ℕ) : ℤ) : ZMod curveOrder) := by
    push_cast
    exact h
  have hdvd : (((curveOrder : ℕ) : ℤ)) ∣ ((m : ℕ) : ℤ) - x :=
    ((ZMod.intCast_eq_intCast_iff x ((m : ℕ) : ℤ) curveOrder).1 h2).dvd
  obtain ⟨k, hk⟩ := hdvd
  have hx : x = ((m : ℕ) : ℤ) - ((curveOrder : ℕ) : ℤ) * k := by linarith
  rw [hx, sub_smul, mul_smul, natCast_zsmul, natCast_zsmul, smul_comm, hg, smul_zero,
    sub_zero]

/-- C1: for every valid `(n, t)` with `n ≤ 50`, any selection of at least
`t` of the returned shares with distinct indices, interpolated at 0 with the
Lagrange coefficients of `_calculateLagrangeCoefficients` (through the
aggregation loop), yields the constant coefficient `a₀` modulo the curve
order; any other qualifying selection yields the same scalar; and on any
group where the basepoint is killed by the curve order (as on secp256k1) the
scalar times the basepoint equals the returned `groupPublicKey`. -/
theorem claim_C1 (G : Type) [AddCommGroup G] (g : G) (e : Entropy) (pos n t : ℕ)
    (kss : KeyShareSet G) (sel : List ParticipantShare)
    (h1 : 1 ≤ t) (h2 : t ≤ n) (h50 : n ≤ 50)
    (hgen : generateKeyShares G g e pos n t = Except.ok kss)
    (hsub : ∀ p ∈ sel, p ∈ kss.shares)
    (hnd : (sel.map (fun p => p.index)).Nodup)
    (hk : t ≤ sel.length) :
    ((interpolateAtZero (sel.map (fun p => (p.index, p.value))) : ℤ) : ZMod curveOrder) =
      ((drawCoefficients e pos t).1.getD 0 0 : ZMod curveOrder) ∧
    (∀ sel₂ : List ParticipantShare, (∀ p ∈ sel₂, p ∈ kss.shares) →
      (sel₂.map (fun p => p.index)).Nodup → t ≤ sel₂.length →
      ((interpolateAtZero (sel₂.map (fun p => (p.index, p.value))) : ℤ) : ZMod curveOrder) =
        ((interpolateAtZero (sel.map (fun p => (p.index, p.value))) : ℤ) : ZMod curveOrder)) ∧
    ((curveOrder : ℕ) • g = 0 →
      interpolateAtZero (sel.map (fun p => (p.index, p.value))) • g = kss.groupPublicKey) := by
  unfold generateKeyShares at hgen
  rw [if_neg (by omega), if_neg (by omega)] at hgen
  injection hgen with hgen
  subst hgen
  have hchar : ∀ p : ParticipantShare,
      p ∈ (List.range n).map
        (fun i0 => (⟨i0 + 1, evalPolyAt (drawCoefficients e pos t).1 (i0 + 1)⟩ :
          ParticipantShare)) →
      (1 ≤ p.index ∧ p.index ≤ 50) ∧ p.value = evalPolyAt (drawCoefficients e pos t).1 p.index := by
    intro p hp
    obtain ⟨i0, hi0, rfl⟩ := List.mem_map.1 hp
    have hi1 : i0 < n := List.mem_range.1 hi0
    exact ⟨⟨show 1 ≤ i0 + 1 by omega, show i0 + 1 ≤ 50 by omega⟩, rfl⟩
  have halen : (drawCoefficients e pos t).1.length = t := drawCoefficients_length e t pos
  have hmain := reconstruct_core (drawCoefficients e pos t).1 sel (by omega)
    (fun p hp => hchar p (hsub p hp)) hnd (by omega)
  refine ⟨hmain, fun sel₂ hsub₂ hnd₂ hk₂ => ?_, fun hord => ?_⟩
  · have hmain₂ := reconstruct_core (drawCoefficients e pos t).1 sel₂ (by omega)
      (fun p hp => hchar p (hsub₂ p hp)) hnd₂ (by omega)
    rw [hmain₂, hmain]
  · exact zsmul_eq_nsmul_of_cast_eq g hord hmain

/-- Witness for C1 at `(n, t) = (1, 1)` over the trivial group with a
constant stream, reconstructing from the single share. -/
theorem claim_C1_witness :
    ((interpolateAtZero (([⟨1, 1⟩] : List ParticipantShare).map
        (fun p => (p.index, p.value))) : ℤ) : ZMod curveOrder) =
      ((drawCoefficients (constEntropy 1 (by decide)) 0 1).1.getD 0 0 : ZMod curveOrder) ∧
    (∀ sel₂ : List ParticipantShare,
      (∀ p ∈ sel₂, p ∈ ([⟨1, 1⟩] : List ParticipantShare)) →
      (sel₂.map (fun p => p.index)).Nodup → 1 ≤ sel₂.length →
      ((interpolateAtZero (sel₂.map (fun p => (p.index, p.value))) : ℤ) : ZMod curveOrder) =
        ((interpolateAtZero (([⟨1, 1⟩] : List ParticipantShare).map
          (fun p => (p.index, p.value))) : ℤ) : ZMod curveOrder)) ∧
    ((curveOrder : ℕ) • PUnit.unit = (0 : PUnit) →
      interpolateAtZero (([⟨1, 1⟩] : List ParticipantShare).map
        (fun p => (p.index, p.value))) • PUnit.unit = PUnit.unit) := by
  have hd : (drawCoefficients (constEntropy 1 (by decide)) 0 1).1 = [1] := by
    simpa using drawCoefficients_const 1 (by decide) 1 0
  have he : evalPolyAt [1] 1 = 1 := by decide
  have hgen : generateKeyShares PUnit PUnit.unit (constEntropy 1 (by decide)) 0 1 1 =
      Except.ok ⟨[⟨1, 1⟩], [⟨1, PUnit.unit⟩], PUnit.unit, 1, 1⟩ := by
    unfold generateKeyShares
    rw [if_neg (by decide), if_neg (by decide)]
    simp [hd, List.range_succ, he]
  have happ := claim_C1 PUnit PUnit.unit (constEntropy 1 (by decide)) 0 1 1
    ⟨[⟨1, 1⟩], [⟨1, PUnit.unit⟩], PUnit.unit, 1, 1⟩ [⟨1, 1⟩]
    (by decide) (by decide) (by decide) hgen (fun p hp => hp) (by decide) (by decide)
  simpa using happ

end Frost
